import Mathlib

/-!
Verification of the table-vision coordinate core.

This file gives a shallow embedding of the repository's coordinate layer:
the `TableCoordinates` store (`src/src/core/coordinates.py`), the main
window's reconciliation and deletion handlers and the custom batch
extraction worker (`src/src/ui/main_window.py`), and the viewer's
PDF/screen coordinate transforms (`src/src/visualization/viewer.py`).
Python dictionaries holding region data are modelled as the record
`Coord`; partial update dictionaries as the record `Update` with one
`Option` field per known key; Python floats as rationals; Qt's integer
`QRect` (whose `right` and `bottom` are `x + w - 1` and `y + h - 1`) as
the record `QRect`.
-/

namespace TableVision

/-- One region dictionary as stored by `TableCoordinates`. The worker and
the store always populate these keys; `modified_at` is only present when
a caller supplies it, hence an `Option`. -/
structure Coord where
  id : Int
  page : Int
  x1 : ℚ
  y1 : ℚ
  x2 : ℚ
  y2 : ℚ
  width : ℚ
  height : ℚ
  user_created : Bool
  accuracy : ℚ
  whitespace : ℚ
  modified_at : Option Int := none
  deriving DecidableEq, Repr

/-- A partial update dictionary for `update_coordinate`: `some v` means the
key is present with value `v`, `none` that the key is absent. -/
structure Update where
  id : Option Int := none
  page : Option Int := none
  x1 : Option ℚ := none
  y1 : Option ℚ := none
  x2 : Option ℚ := none
  y2 : Option ℚ := none
  width : Option ℚ := none
  height : Option ℚ := none
  user_created : Option Bool := none
  accuracy : Option ℚ := none
  whitespace : Option ℚ := none
  modified_at : Option Int := none
  deriving DecidableEq, Repr

/-- Python `coord.update(updates)`: every key present in `updates`
overwrites the stored value, all other keys are kept. -/
def dictUpdate (c : Coord) (u : Update) : Coord where
  id := u.id.getD c.id
  page := u.page.getD c.page
  x1 := u.x1.getD c.x1
  y1 := u.y1.getD c.y1
  x2 := u.x2.getD c.x2
  y2 := u.y2.getD c.y2
  width := u.width.getD c.width
  height := u.height.getD c.height
  user_created := u.user_created.getD c.user_created
  accuracy := u.accuracy.getD c.accuracy
  whitespace := u.whitespace.getD c.whitespace
  modified_at := match u.modified_at with
    | some t => some t
    | none => c.modified_at

/-- State of `TableCoordinates`: the list of region dictionaries and the
`next_id` counter (initialised to 1). -/
structure TC where
  coordinates : List Coord
  next_id : Int
  deriving DecidableEq, Repr

/-- `TableCoordinates.__init__`. -/
def TC.init : TC := ⟨[], 1⟩

/-- `TableCoordinates.add_coordinate`: copies the input dictionary, sets
`id` to `next_id` (any caller-supplied id is overwritten) and
`user_created` to `coordinate.get('user_created', False)`, appends the
copy and increments `next_id`; returns the new state and the assigned id. -/
def addCoordinate (tc : TC) (c : Coord) : TC × Int :=
  let c' : Coord := { c with id := tc.next_id }
  (⟨tc.coordinates ++ [c'], tc.next_id + 1⟩, tc.next_id)

/-- The loop of `remove_coordinate`: delete the first entry whose `id`
matches, reporting whether one was found. -/
def removeById : List Coord → Int → Option (List Coord)
  | [], _ => none
  | c :: rest, cid =>
    if c.id = cid then some rest
    else (removeById rest cid).map (fun l => c :: l)

/-- `TableCoordinates.remove_coordinate`. -/
def removeCoordinate (tc : TC) (cid : Int) : TC × Bool :=
  match removeById tc.coordinates cid with
  | some l => (⟨l, tc.next_id⟩, true)
  | none => (tc, false)

/-- The loop of `update_coordinate`: merge `u` into the first entry whose
`id` matches. -/
def updateById : List Coord → Int → Update → Option (List Coord)
  | [], _, _ => none
  | c :: rest, cid, u =>
    if c.id = cid then some (dictUpdate c u :: rest)
    else (updateById rest cid u).map (fun l => c :: l)

/-- `TableCoordinates.update_coordinate`. -/
def updateCoordinate (tc : TC) (cid : Int) (u : Update) : TC × Bool :=
  match updateById tc.coordinates cid u with
  | some l => (⟨l, tc.next_id⟩, true)
  | none => (tc, false)

/-- The loop of `get_coordinate`: first entry whose `id` matches. -/
def findById : List Coord → Int → Option Coord
  | [], _ => none
  | c :: rest, cid => if c.id = cid then some c else findById rest cid

/-- `TableCoordinates.get_coordinate`. -/
def getCoordinate (tc : TC) (cid : Int) : Option Coord :=
  findById tc.coordinates cid

/-- `TableCoordinates.get_coordinates_for_page`. -/
def getCoordinatesForPage (tc : TC) (p : Int) : List Coord :=
  tc.coordinates.filter (fun c => c.page = p)

/-- `TableCoordinates.get_all_coordinates` (returns a copy of the list;
with value semantics this is the list itself). -/
def getAllCoordinates (tc : TC) : List Coord :=
  tc.coordinates

/-- `TableCoordinates.create_user_coordinate`: builds a dictionary with
normalised bounds (`min`/`max`), derived `width`/`height`, the
`user_created` flag set and accuracy 100, then adds it. The dictionary
carries no `id` key; `add_coordinate` assigns one (the placeholder 0 here
is overwritten). -/
def createUserCoordinate (tc : TC) (page : Int) (x1 y1 x2 y2 : ℚ) : TC × Int :=
  addCoordinate tc
    { id := 0
      page := page
      x1 := min x1 x2
      y1 := min y1 y2
      x2 := max x1 x2
      y2 := max y1 y2
      width := |x2 - x1|
      height := |y2 - y1|
      user_created := true
      accuracy := 100
      whitespace := 0 }

/-- `TableCoordinates.clear_all`: empties the list and resets `next_id`
to 1. -/
def clearAll (_tc : TC) : TC := ⟨[], 1⟩

/-- A sequence of `add_coordinate` calls, returning the final state and
the list of returned ids. -/
def addAll : TC → List Coord → TC × List Int
  | tc, [] => (tc, [])
  | tc, c :: cs =>
    let p := addCoordinate tc c
    let q := addAll p.1 cs
    (q.1, p.2 :: q.2)

theorem addAll_ids (tc : TC) (cs : List Coord) :
    (addAll tc cs).2 = (List.range cs.length).map (fun j : ℕ => tc.next_id + (j : ℤ)) := by
  induction cs generalizing tc with
  | nil => rfl
  | cons c cs ih =>
    simp only [addAll, addCoordinate, List.length_cons, List.range_succ_eq_map,
      List.map_cons, List.map_map, ih]
    rw [List.cons.injEq]
    constructor
    · push_cast
      omega
    · apply List.map_congr_left
      intro j _
      simp only [Function.comp_apply]
      push_cast
      omega

theorem addAll_next_id (tc : TC) (cs : List Coord) :
    (addAll tc cs).1.next_id = tc.next_id + cs.length := by
  induction cs generalizing tc with
  | nil => simp [addAll]
  | cons c cs ih =>
    simp only [addAll, addCoordinate, ih, List.length_cons]
    omega

/-- Claim C4: for any finite sequence of `add_coordinate` calls on one
`TableCoordinates` store with no intervening `clear_all`, the returned
ids are the consecutive integers starting at the store's `next_id` —
independent of any `id` values carried by the inputs — and are therefore
pairwise distinct. -/
theorem add_coordinate_ids_distinct (tc : TC) (cs : List Coord) :
    (addAll tc cs).2 = (List.range cs.length).map (fun j : ℕ => tc.next_id + (j : ℤ)) ∧
      (addAll tc cs).2.Pairwise (· ≠ ·) := by
  refine ⟨addAll_ids tc cs, ?_⟩
  rw [addAll_ids tc cs]
  refine List.Pairwise.map _ ?_ (List.pairwise_lt_range cs.length)
  intro a b hab
  intro h
  have : (a : ℤ) = (b : ℤ) := by omega
  omega

theorem updateById_eq_none {l : List Coord} {cid : Int} {u : Update}
    (h : ∀ c ∈ l, c.id ≠ cid) : updateById l cid u = none := by
  induction l with
  | nil => rfl
  | cons c rest ih =>
    simp only [updateById]
    rw [if_neg (h c (List.mem_cons_self _ _)), ih (fun d hd => h d (List.mem_cons_of_mem _ hd))]
    rfl

theorem updateById_append {pre : List Coord} {c : Coord} {post : List Coord} {cid : Int}
    {u : Update} (hpre : ∀ d ∈ pre, d.id ≠ cid) (hc : c.id = cid) :
    updateById (pre ++ c :: post) cid u = some (pre ++ dictUpdate c u :: post) := by
  induction pre with
  | nil => simp [updateById, hc]
  | cons d rest ih =>
    simp only [List.cons_append, updateById, List.append_eq]
    rw [if_neg (hpre d (List.mem_cons_self _ _)),
      ih (fun e he => hpre e (List.mem_cons_of_mem _ he))]
    rfl

theorem findById_append {pre : List Coord} {c : Coord} {post : List Coord} {j : Int}
    (hpre : ∀ d ∈ pre, d.id ≠ j) (hc : c.id = j) :
    findById (pre ++ c :: post) j = some c := by
  induction pre with
  | nil => simp [findById, hc]
  | cons d rest ih =>
    simp only [List.cons_append, findById]
    rw [if_neg (hpre d (List.mem_cons_self _ _))]
    exact ih (fun e he => hpre e (List.mem_cons_of_mem _ he))

/-- A region dictionary with reversed x bounds (x1=300 > x2=100), as a
caller may hand to `add_coordinate`. -/
def revCoord : Coord :=
  { id := 7, page := 0, x1 := 300, y1 := 0, x2 := 100, y2 := 50,
    width := 200, height := 50, user_created := false, accuracy := 0, whitespace := 0 }

/-- What `add_coordinate` actually stores for `revCoord`: the same
dictionary with a fresh id and the bounds still reversed. -/
def revStored : Coord := { revCoord with id := 1 }

/-- Claim C5 counterexample: `add_coordinate` does not normalize bounds.
Adding a dictionary with `x1=300, x2=100` to a fresh store keeps the
reversed bounds verbatim, so the stored region violates `x1 ≤ x2`. -/
theorem add_coordinate_keeps_reversed_bounds :
    (addCoordinate TC.init revCoord).1.coordinates = [revStored] ∧
      revStored.x1 = 300 ∧ revStored.x2 = 100 ∧ ¬ revStored.x1 ≤ revStored.x2 := by
  decide

/-- Claim C5 (amended): only `create_user_coordinate` normalizes. For every
input it stores a region whose bounds are the `min`/`max` of the supplied
corners — so `x1 ≤ x2` and `y1 ≤ y2` hold, reversed corners are swapped,
never rejected — and this normalization is idempotent; `add_coordinate`
itself stores caller-supplied bounds verbatim (see the counterexample). -/
theorem create_user_coordinate_normalizes (tc : TC) (page : Int) (x1 y1 x2 y2 : ℚ) :
    (createUserCoordinate tc page x1 y1 x2 y2).1.coordinates =
      tc.coordinates ++
        [{ id := tc.next_id, page := page, x1 := min x1 x2, y1 := min y1 y2,
           x2 := max x1 x2, y2 := max y1 y2, width := |x2 - x1|, height := |y2 - y1|,
           user_created := true, accuracy := 100, whitespace := 0 }] ∧
      min x1 x2 ≤ max x1 x2 ∧ min y1 y2 ≤ max y1 y2 ∧
      min (min x1 x2) (max x1 x2) = min x1 x2 ∧ max (min x1 x2) (max x1 x2) = max x1 x2 ∧
      min (min y1 y2) (max y1 y2) = min y1 y2 ∧ max (min y1 y2) (max y1 y2) = max y1 y2 := by
  refine ⟨rfl, min_le_max, min_le_max, ?_, ?_, ?_, ?_⟩
  · exact min_eq_left min_le_max
  · exact max_eq_right min_le_max
  · exact min_eq_left min_le_max
  · exact max_eq_right min_le_max

/-- A stored region used to probe `update_coordinate`. -/
def updBase : Coord :=
  { id := 1, page := 0, x1 := 0, y1 := 0, x2 := 100, y2 := 50,
    width := 100, height := 50, user_created := false, accuracy := 90,
    whitespace := 5, modified_at := some 10 }

/-- A partial update touching only `x1`. -/
def updOnlyX1 : Update := { x1 := some 500 }

/-- `updBase` after `update_coordinate` with `updOnlyX1`. -/
def updAfter : Coord := { updBase with x1 := 500 }

/-- Claim C6 counterexample: `update_coordinate` merges the supplied fields
but does not re-normalize the bounds (the result has x1=500 > x2=100), does
not re-derive width (still 100, not x2-x1), and does not refresh
`modified_at` (unchanged). -/
theorem update_coordinate_no_renormalize_cex :
    updateCoordinate ⟨[updBase], 2⟩ 1 updOnlyX1 = (⟨[updAfter], 2⟩, true) ∧
      ¬ updAfter.x1 ≤ updAfter.x2 ∧
      updAfter.width ≠ updAfter.x2 - updAfter.x1 ∧
      updAfter.modified_at = updBase.modified_at := by
  refine ⟨by decide, by decide, ?_, by decide⟩
  show (100 : ℚ) ≠ 100 - 500
  norm_num

/-- Claim C6 (amended): `update_coordinate` merges the supplied fields
verbatim into the first stored region with the given id and returns true
(it does not re-normalize bounds, re-derive width/height, or refresh
`modified_at` — see the counterexample); for an id not present it returns
false and leaves the store unchanged. -/
theorem update_coordinate_merges_verbatim (tc : TC) (cid : Int) (u : Update) :
    ((∀ c ∈ tc.coordinates, c.id ≠ cid) → updateCoordinate tc cid u = (tc, false)) ∧
      (∀ pre c post, tc.coordinates = pre ++ c :: post →
        (∀ d ∈ pre, d.id ≠ cid) → c.id = cid →
        updateCoordinate tc cid u = (⟨pre ++ dictUpdate c u :: post, tc.next_id⟩, true)) := by
  constructor
  · intro h
    simp only [updateCoordinate, updateById_eq_none h]
  · intro pre c post hdec hpre hc
    simp only [updateCoordinate, hdec, updateById_append hpre hc]

/-- Witness for `update_coordinate_merges_verbatim` at a one-element store:
updating an absent id 5 fails and leaves the store unchanged; updating the
present id 1 merges the fields. -/
theorem update_coordinate_merges_verbatim_witness :
    updateCoordinate ⟨[updBase], 2⟩ 5 updOnlyX1 = (⟨[updBase], 2⟩, false) ∧
      updateCoordinate ⟨[updBase], 2⟩ 1 updOnlyX1 =
        (⟨[dictUpdate updBase updOnlyX1], 2⟩, true) := by
  constructor
  · exact (update_coordinate_merges_verbatim ⟨[updBase], 2⟩ 5 updOnlyX1).1 (by decide)
  · exact (update_coordinate_merges_verbatim ⟨[updBase], 2⟩ 1 updOnlyX1).2
      [] updBase [] rfl (by decide) rfl

/-- First region of the C10 store. -/
def clashA : Coord :=
  { id := 1, page := 0, x1 := 1, y1 := 1, x2 := 2, y2 := 2,
    width := 1, height := 1, user_created := false, accuracy := 50, whitespace := 0 }

/-- Second region of the C10 store. -/
def clashB : Coord :=
  { id := 2, page := 1, x1 := 3, y1 := 3, x2 := 4, y2 := 4,
    width := 1, height := 1, user_created := true, accuracy := 100, whitespace := 0 }

/-- An update carrying only the key `id` with value 1. -/
def clashU : Update := { id := some 1 }

/-- Claim C10 counterexample: with store `[clashA (id 1), clashB (id 2)]`,
`update_coordinate(2, {'id': 1})` succeeds and re-keys `clashB` to id 1,
but `get_coordinate(1)` then returns `clashA` — the first region with that
id — not the updated region, refuting the claim's "afterwards
get_coordinate(j) returns that region". -/
theorem update_coordinate_id_clash_cex :
    (updateCoordinate ⟨[clashA, clashB], 3⟩ 2 clashU).2 = true ∧
      (updateCoordinate ⟨[clashA, clashB], 3⟩ 2 clashU).1.coordinates =
        [clashA, { clashB with id := 1 }] ∧
      getCoordinate (updateCoordinate ⟨[clashA, clashB], 3⟩ 2 clashU).1 1 = some clashA ∧
      clashA ≠ { clashB with id := 1 } := by
  decide

/-- Claim C10 (amended): `update_coordinate` merges every supplied key
verbatim, including `id`: updating the first region holding id `cid` with
an update carrying `id = j` succeeds and re-keys that region to `j`;
afterwards `get_coordinate(j)` returns the first stored region with id `j`,
which is the updated region whenever no earlier-stored region carries id
`j` — so update can duplicate ids and does not preserve the store's
id-uniqueness invariant (see the witness). -/
theorem update_coordinate_sets_id (tc : TC) (cid j : Int) (u : Update)
    (pre : List Coord) (c : Coord) (post : List Coord)
    (hdec : tc.coordinates = pre ++ c :: post)
    (hpre : ∀ d ∈ pre, d.id ≠ cid) (hc : c.id = cid)
    (hu : u.id = some j) (hprej : ∀ d ∈ pre, d.id ≠ j) :
    updateCoordinate tc cid u = (⟨pre ++ dictUpdate c u :: post, tc.next_id⟩, true) ∧
      (dictUpdate c u).id = j ∧
      getCoordinate (updateCoordinate tc cid u).1 j = some (dictUpdate c u) := by
  have hid : (dictUpdate c u).id = j := by simp [dictUpdate, hu]
  have heq : updateCoordinate tc cid u = (⟨pre ++ dictUpdate c u :: post, tc.next_id⟩, true) :=
    (update_coordinate_merges_verbatim tc cid u).2 pre c post hdec hpre hc
  refine ⟨heq, hid, ?_⟩
  rw [heq]
  exact findById_append hprej hid

/-- Witness for `update_coordinate_sets_id`: on store `[clashB (id 2),
clashA (id 1)]`, updating id 2 with `{'id': 1}` re-keys `clashB` to 1 and
`get_coordinate(1)` returns it; afterwards two stored regions carry id 1,
so id-uniqueness is broken. -/
theorem update_coordinate_sets_id_witness :
    updateCoordinate ⟨[clashB, clashA], 3⟩ 2 clashU =
        (⟨[{ clashB with id := 1 }, clashA], 3⟩, true) ∧
      getCoordinate (updateCoordinate ⟨[clashB, clashA], 3⟩ 2 clashU).1 1 =
        some { clashB with id := 1 } ∧
      ((updateCoordinate ⟨[clashB, clashA], 3⟩ 2 clashU).1.coordinates.filter
        (fun c => c.id == 1)).length = 2 := by
  have h := update_coordinate_sets_id ⟨[clashB, clashA], 3⟩ 2 1 clashU
    [] clashB [clashA] rfl (by decide) (by decide) (by decide) (by decide)
  refine ⟨?_, ?_, ?_⟩
  · exact h.1
  · have := h.2.2
    simpa [dictUpdate, clashU] using this
  · rw [h.1]
    decide

/-- Python `int()` applied to a float: truncation toward zero. -/
def pyInt (q : ℚ) : ℤ := if q < 0 then ⌈q⌉ else ⌊q⌋

/-- Qt's integer `QRect`, stored as position plus size. Its `right` and
`bottom` follow Qt's historical convention `x + w - 1`, `y + h - 1`. -/
structure QRect where
  x : Int
  y : Int
  w : Int
  h : Int
  deriving DecidableEq, Repr

/-- `QRect::right()` is `x() + width() - 1`. -/
def QRect.rightEdge (r : QRect) : Int := r.x + r.w - 1

/-- `QRect::bottom()` is `y() + height() - 1`. -/
def QRect.bottomEdge (r : QRect) : Int := r.y + r.h - 1

/-- An axis-aligned PDF-space rectangle (the x1/y1/x2/y2 part of a region
dictionary). -/
structure Rect where
  x1 : ℚ
  y1 : ℚ
  x2 : ℚ
  y2 : ℚ
  deriving DecidableEq, Repr

/-- `InteractivePDFLabel._coord_to_screen_rect`: the pixmap is rendered at
2x, so the PDF page height is `pixmap.height() / 2`; x is scaled by 2, y is
flipped against the page height and scaled by 2, both then scaled by the
viewer's `scale_factor`; the result is truncated into an integer `QRect`
offset by the widget centering offset. -/
def coordToScreenRect (r : Rect) (pixmapH : Int) (scaleFactor : ℚ) (ox oy : Int) : QRect :=
  let actualPageHeight : ℚ := (pixmapH : ℚ) / 2
  let pixmapX1 := r.x1 * 2
  let pixmapX2 := r.x2 * 2
  let pixmapY1 := (actualPageHeight - r.y2) * 2
  let pixmapY2 := (actualPageHeight - r.y1) * 2
  let screenX1 := pixmapX1 * scaleFactor
  let screenX2 := pixmapX2 * scaleFactor
  let screenY1 := pixmapY1 * scaleFactor
  let screenY2 := pixmapY2 * scaleFactor
  ⟨pyInt (screenX1 + ox), pyInt (screenY1 + oy),
    pyInt (screenX2 - screenX1), pyInt (screenY2 - screenY1)⟩

/-- `InteractivePDFLabel._screen_to_coord_rect`: removes the offset and
scale factor from the rect's `x`/`y`/`right()`/`bottom()`, halves out the
2x rendering and flips y back against the page height. -/
def screenToCoordRect (sr : QRect) (pixmapH : Int) (scaleFactor : ℚ) (ox oy : Int) : Rect :=
  let actualPageHeight : ℚ := (pixmapH : ℚ) / 2
  let pixmapX1 : ℚ := ((sr.x - ox : ℤ) : ℚ) / scaleFactor
  let pixmapY1 : ℚ := ((sr.y - oy : ℤ) : ℚ) / scaleFactor
  let pixmapX2 : ℚ := ((sr.rightEdge - ox : ℤ) : ℚ) / scaleFactor
  let pixmapY2 : ℚ := ((sr.bottomEdge - oy : ℤ) : ℚ) / scaleFactor
  ⟨pixmapX1 / 2, actualPageHeight - pixmapY2 / 2,
    pixmapX2 / 2, actualPageHeight - pixmapY1 / 2⟩

/-- PDF → screen → PDF with the same pixmap, scale factor and offsets. -/
def roundTrip (r : Rect) (pixmapH : Int) (scaleFactor : ℚ) (ox oy : Int) : Rect :=
  screenToCoordRect (coordToScreenRect r pixmapH scaleFactor ox oy) pixmapH scaleFactor ox oy

theorem pyInt_eq_intCast {q : ℚ} {n : ℤ} (h : q = (n : ℚ)) : pyInt q = n := by
  subst h
  unfold pyInt
  split <;> simp

theorem pyInt_abs_lt (q : ℚ) : |(pyInt q : ℚ) - q| < 1 := by
  unfold pyInt
  split
  · rw [abs_lt]
    constructor
    · have := Int.le_ceil q
      linarith
    · have := Int.ceil_lt_add_one q
      linarith
  · rw [abs_lt]
    constructor
    · have := Int.sub_one_lt_floor q
      linarith
    · have := Int.floor_le q
      linarith

/-- Claim C2 counterexample: with page height 792 (pixmap height 1584),
render factor 2, zoom 1 and zero offsets, round-tripping the rectangle
(100, 100, 300, 200) returns (100, 100.5, 299.5, 200): the integer
truncation of the screen rectangle and Qt's inclusive `right`/`bottom`
edges lose half a PDF point on x2 and y1, far beyond 1e-6 relative
tolerance. -/
theorem round_trip_beyond_tolerance_cex :
    roundTrip ⟨100, 100, 300, 200⟩ 1584 1 0 0 = ⟨100, 201 / 2, 599 / 2, 200⟩ ∧
      ¬ |(roundTrip ⟨100, 100, 300, 200⟩ 1584 1 0 0).x2 - 300| ≤
          1 / 1000000 * |(300 : ℚ)| := by
  have hq : coordToScreenRect ⟨100, 100, 300, 200⟩ 1584 1 0 0 = ⟨200, 1184, 400, 200⟩ := by
    simp only [coordToScreenRect, QRect.mk.injEq]
    refine ⟨pyInt_eq_intCast ?_, pyInt_eq_intCast ?_, pyInt_eq_intCast ?_, pyInt_eq_intCast ?_⟩ <;>
      push_cast <;> norm_num
  have h : roundTrip ⟨100, 100, 300, 200⟩ 1584 1 0 0 = ⟨100, 201 / 2, 599 / 2, 200⟩ := by
    rw [roundTrip, hq]
    simp only [screenToCoordRect, QRect.rightEdge, QRect.bottomEdge, Rect.mk.injEq]
    norm_num
  refine ⟨h, ?_⟩
  rw [h]
  rw [show |(599 : ℚ) / 2 - 300| = 1 / 2 by
    rw [show (599 : ℚ) / 2 - 300 = -(1 / 2) by norm_num, abs_neg]
    exact abs_of_pos (by norm_num)]
  rw [abs_of_pos (by norm_num : (0 : ℚ) < 300)]
  norm_num

/-- Claim C2 (amended): with render factor 2 and any positive zoom `Z`,
the round trip reproduces `x1` and `y2` to within `1/(2Z)` and `x2` and
`y1` to within `3/(2Z)` PDF points (the error comes from integer pixel
truncation and Qt's inclusive `right`/`bottom` edges) — but not within
1e-6 relative tolerance (see the counterexample). -/
theorem round_trip_pixel_bound (r : Rect) (pixmapH : Int) (Z : ℚ) (ox oy : Int)
    (hZ : 0 < Z) (hH : 0 < pixmapH) :
    |(roundTrip r pixmapH Z ox oy).x1 - r.x1| < 1 / (2 * Z) ∧
      |(roundTrip r pixmapH Z ox oy).y2 - r.y2| < 1 / (2 * Z) ∧
      |(roundTrip r pixmapH Z ox oy).x2 - r.x2| < 3 / (2 * Z) ∧
      |(roundTrip r pixmapH Z ox oy).y1 - r.y1| < 3 / (2 * Z) := by
  have h2Z : (0 : ℚ) < 2 * Z := by positivity
  have hZ0 : Z ≠ 0 := ne_of_gt hZ
  have hx1 : (roundTrip r pixmapH Z ox oy).x1 =
      ((pyInt (r.x1 * 2 * Z + ox) : ℚ) - ox) / Z / 2 := by
    simp only [roundTrip, coordToScreenRect, screenToCoordRect]
    push_cast
    ring
  have hy2 : (roundTrip r pixmapH Z ox oy).y2 =
      (pixmapH : ℚ) / 2 -
        ((pyInt (((pixmapH : ℚ) / 2 - r.y2) * 2 * Z + oy) : ℚ) - oy) / Z / 2 := by
    simp only [roundTrip, coordToScreenRect, screenToCoordRect]
    push_cast
    ring
  have hx2 : (roundTrip r pixmapH Z ox oy).x2 =
      ((pyInt (r.x1 * 2 * Z + ox) : ℚ) +
        (pyInt (r.x2 * 2 * Z - r.x1 * 2 * Z) : ℚ) - 1 - ox) / Z / 2 := by
    simp only [roundTrip, coordToScreenRect, screenToCoordRect, QRect.rightEdge]
    push_cast
    ring
  have hy1 : (roundTrip r pixmapH Z ox oy).y1 =
      (pixmapH : ℚ) / 2 -
        ((pyInt (((pixmapH : ℚ) / 2 - r.y2) * 2 * Z + oy) : ℚ) +
          (pyInt (((pixmapH : ℚ) / 2 - r.y1) * 2 * Z -
            ((pixmapH : ℚ) / 2 - r.y2) * 2 * Z) : ℚ) - 1 - oy) / Z / 2 := by
    simp only [roundTrip, coordToScreenRect, screenToCoordRect, QRect.bottomEdge]
    push_cast
    ring
  obtain ⟨d1a, d1b⟩ := abs_lt.mp (pyInt_abs_lt (r.x1 * 2 * Z + ox))
  obtain ⟨d2a, d2b⟩ := abs_lt.mp (pyInt_abs_lt (r.x2 * 2 * Z - r.x1 * 2 * Z))
  obtain ⟨d3a, d3b⟩ := abs_lt.mp (pyInt_abs_lt (((pixmapH : ℚ) / 2 - r.y2) * 2 * Z + oy))
  obtain ⟨d4a, d4b⟩ := abs_lt.mp (pyInt_abs_lt (((pixmapH : ℚ) / 2 - r.y1) * 2 * Z -
    ((pixmapH : ℚ) / 2 - r.y2) * 2 * Z))
  refine ⟨?_, ?_, ?_, ?_⟩
  · rw [hx1,
      show ((pyInt (r.x1 * 2 * Z + ox) : ℚ) - ox) / Z / 2 - r.x1 =
        ((pyInt (r.x1 * 2 * Z + ox) : ℚ) - (r.x1 * 2 * Z + ox)) / (2 * Z) by
          field_simp; ring,
      abs_div, abs_of_pos h2Z]
    exact (div_lt_div_iff_of_pos_right h2Z).mpr (abs_lt.mpr ⟨by linarith, by linarith⟩)
  · rw [hy2,
      show (pixmapH : ℚ) / 2 -
          ((pyInt (((pixmapH : ℚ) / 2 - r.y2) * 2 * Z + oy) : ℚ) - oy) / Z / 2 - r.y2 =
        ((((pixmapH : ℚ) / 2 - r.y2) * 2 * Z + oy) -
          (pyInt (((pixmapH : ℚ) / 2 - r.y2) * 2 * Z + oy) : ℚ)) / (2 * Z) by
          field_simp; ring,
      abs_div, abs_of_pos h2Z]
    exact (div_lt_div_iff_of_pos_right h2Z).mpr (abs_lt.mpr ⟨by linarith, by linarith⟩)
  · rw [hx2,
      show ((pyInt (r.x1 * 2 * Z + ox) : ℚ) +
          (pyInt (r.x2 * 2 * Z - r.x1 * 2 * Z) : ℚ) - 1 - ox) / Z / 2 - r.x2 =
        (((pyInt (r.x1 * 2 * Z + ox) : ℚ) - (r.x1 * 2 * Z + ox)) +
          ((pyInt (r.x2 * 2 * Z - r.x1 * 2 * Z) : ℚ) -
            (r.x2 * 2 * Z - r.x1 * 2 * Z)) - 1) / (2 * Z) by
          field_simp; ring,
      abs_div, abs_of_pos h2Z]
    exact (div_lt_div_iff_of_pos_right h2Z).mpr (abs_lt.mpr ⟨by linarith, by linarith⟩)
  · rw [hy1,
      show (pixmapH : ℚ) / 2 -
          ((pyInt (((pixmapH : ℚ) / 2 - r.y2) * 2 * Z + oy) : ℚ) +
            (pyInt (((pixmapH : ℚ) / 2 - r.y1) * 2 * Z -
              ((pixmapH : ℚ) / 2 - r.y2) * 2 * Z) : ℚ) - 1 - oy) / Z / 2 - r.y1 =
        (((((pixmapH : ℚ) / 2 - r.y2) * 2 * Z + oy) -
            (pyInt (((pixmapH : ℚ) / 2 - r.y2) * 2 * Z + oy) : ℚ)) +
          ((((pixmapH : ℚ) / 2 - r.y1) * 2 * Z - ((pixmapH : ℚ) / 2 - r.y2) * 2 * Z) -
            (pyInt (((pixmapH : ℚ) / 2 - r.y1) * 2 * Z -
              ((pixmapH : ℚ) / 2 - r.y2) * 2 * Z) : ℚ)) + 1) / (2 * Z) by
          field_simp; ring,
      abs_div, abs_of_pos h2Z]
    exact (div_lt_div_iff_of_pos_right h2Z).mpr (abs_lt.mpr ⟨by linarith, by linarith⟩)

/-- Witness for `round_trip_pixel_bound` at the spec's own concrete case:
page height 792, zoom 1, zero offsets, rectangle (100, 100, 300, 200). -/
theorem round_trip_pixel_bound_witness :
    |(roundTrip ⟨100, 100, 300, 200⟩ 1584 1 0 0).x2 - 300| < 3 / (2 * 1) :=
  (round_trip_pixel_bound ⟨100, 100, 300, 200⟩ 1584 1 0 0 (by norm_num) (by norm_num)).2.2.1

/-- An integer screen point (`QPoint`). -/
structure Pt where
  x : Int
  y : Int
  deriving DecidableEq, Repr

/-- `QRect(p1, p2)`: Qt stores the two corners, so the width and height
are `p2.x - p1.x + 1` and `p2.y - p1.y + 1`. -/
def qrectFromPoints (p1 p2 : Pt) : QRect :=
  ⟨p1.x, p1.y, p2.x - p1.x + 1, p2.y - p1.y + 1⟩

/-- `QRect::normalized()`: swaps the x corners when `x2 < x1 - 1` and the
y corners when `y2 < y1 - 1`, following the Qt source. -/
def QRect.normalized (r : QRect) : QRect :=
  let x1 := r.x
  let x2 := r.x + r.w - 1
  let y1 := r.y
  let y2 := r.y + r.h - 1
  let nx := if x2 < x1 - 1 then (x2, x1) else (x1, x2)
  let ny := if y2 < y1 - 1 then (y2, y1) else (y1, y2)
  ⟨nx.1, ny.1, nx.2 - nx.1 + 1, ny.2 - ny.1 + 1⟩

/-- The draw-gesture branch of `InteractivePDFLabel.mouseReleaseEvent`:
when a new rectangle was being drawn, build the normalized screen
rectangle from the press and release points; only if its width and height
both exceed 10 (screen pixels) convert it to PDF space and emit
`new_rectangle_created` with the four PDF coordinates; otherwise discard
the gesture. -/
def mouseReleaseEmit (drawing : Bool) (startPos curPos : Pt)
    (pixmapH : Int) (scaleFactor : ℚ) (ox oy : Int) : Option Rect :=
  if drawing then
    let sr := (qrectFromPoints startPos curPos).normalized
    if 10 < sr.w ∧ 10 < sr.h then
      some (screenToCoordRect sr pixmapH scaleFactor ox oy)
    else none
  else none

/-- The Region Store effect of a mouse release: `new_rectangle_created`
is connected to `MainWindow.create_user_coordinate`, which stores the
emitted rectangle on the current page through
`TableCoordinates.create_user_coordinate`; when nothing is emitted the
store is untouched. -/
def releaseIntoStore (tc : TC) (page : Int) (drawing : Bool) (startPos curPos : Pt)
    (pixmapH : Int) (scaleFactor : ℚ) (ox oy : Int) : TC :=
  match mouseReleaseEmit drawing startPos curPos pixmapH scaleFactor ox oy with
  | none => tc
  | some r => (createUserCoordinate tc page r.x1 r.y1 r.x2 r.y2).1

/-- Claim C9: a draw gesture emits `new_rectangle_created` (and hence
creates a user coordinate) exactly when the normalized drawn rectangle's
width and height both exceed 10 pixels; a gesture smaller than that —
in particular any rectangle under 10×10 — is discarded and the Region
Store is unchanged. -/
theorem small_gesture_never_stored (tc : TC) (page : Int) (startPos curPos : Pt)
    (pixmapH : Int) (scaleFactor : ℚ) (ox oy : Int) :
    (mouseReleaseEmit true startPos curPos pixmapH scaleFactor ox oy ≠ none ↔
      10 < (qrectFromPoints startPos curPos).normalized.w ∧
        10 < (qrectFromPoints startPos curPos).normalized.h) ∧
    (¬ (10 < (qrectFromPoints startPos curPos).normalized.w ∧
        10 < (qrectFromPoints startPos curPos).normalized.h) →
      releaseIntoStore tc page true startPos curPos pixmapH scaleFactor ox oy = tc) := by
  constructor
  · unfold mouseReleaseEmit
    split
    · rename_i h
      simp only [if_pos trivial]
      split
      · rename_i hc
        simpa using hc
      · rename_i hc
        simpa using hc
    · simp_all
  · intro h
    unfold releaseIntoStore mouseReleaseEmit
    rw [if_pos rfl, if_neg h]

/-- Witness for `small_gesture_never_stored`: a 6×6-pixel gesture from
(0,0) to (5,5) leaves a fresh store unchanged. -/
theorem small_gesture_never_stored_witness :
    releaseIntoStore TC.init 0 true ⟨0, 0⟩ ⟨5, 5⟩ 1584 1 0 0 = TC.init :=
  (small_gesture_never_stored TC.init 0 ⟨0, 0⟩ ⟨5, 5⟩ 1584 1 0 0).2 (by decide)

/-- One Camelot table as seen by the worker: its `page` attribute
(1-based) and `_bbox`, plus the detection-quality attributes. -/
structure TableRec where
  page : Int
  x1 : ℚ
  y1 : ℚ
  x2 : ℚ
  y2 : ℚ
  accuracy : ℚ
  whitespace : ℚ
  deriving DecidableEq, Repr

/-- `BatchExtractionWorkerCustom._extract_coordinates_for_page`: converts
each table's bbox into a region dictionary carrying the worker's running
`_global_id_counter` as id and, crucially, `page_num - 1` — the 0-based
page index — as `page`; returns the list and the advanced counter. -/
def extractCoordinatesForPage : List TableRec → Int → Int → List Coord × Int
  | [], _, gid => ([], gid)
  | t :: ts, pageNum, gid =>
    let c : Coord :=
      { id := gid, page := pageNum - 1, x1 := t.x1, y1 := t.y1, x2 := t.x2, y2 := t.y2,
        width := t.x2 - t.x1, height := t.y2 - t.y1,
        user_created := false, accuracy := t.accuracy, whitespace := t.whitespace }
    let q := extractCoordinatesForPage ts pageNum (gid + 1)
    (c :: q.1, q.2)

/-- `MainWindow` state relevant to reconciliation: the coordinates manager
and the `all_extracted_coordinates` accumulator list. -/
structure MW where
  manager : TC
  all_extracted : List Coord
  deriving DecidableEq, Repr

/-- The add-to-both loop of `on_page_extraction_completed`: each
coordinate is added to the manager first, re-keyed with the manager's id,
and then appended to `all_extracted_coordinates`. -/
def addToBoth : MW → List Coord → MW
  | mw, [] => mw
  | mw, c :: cs =>
    let p := addCoordinate mw.manager c
    addToBoth ⟨p.1, mw.all_extracted ++ [{ c with id := p.2 }]⟩ cs

/-- The removal loop of `on_page_extraction_completed`: remove each
collected id from the manager in turn. -/
def removeIds : TC → List Int → TC
  | tc, [] => tc
  | tc, i :: is => removeIds (removeCoordinate tc i).1 is

/-- `MainWindow.on_page_extraction_completed(page_number, page_coordinates)`:
capture the user-created coordinates whose stored `page` equals the
emitted `page_number` (preferring the manager's list when nonempty),
drop every coordinate with that `page` value from both structures, then
re-add the fresh coordinates followed by the captured user coordinates to
both structures. Note the worker emits a 1-based `page_number` while the
stored `page` fields are 0-based. -/
def onPageExtractionCompleted (mw : MW) (pageNumber : Int) (pageCoords : List Coord) : MW :=
  let userMgr := mw.manager.coordinates.filter
    (fun c => decide (c.page = pageNumber) && c.user_created)
  let userExt := mw.all_extracted.filter
    (fun c => decide (c.page = pageNumber) && c.user_created)
  let existingUser := if userMgr = [] then userExt else userMgr
  let ext1 := mw.all_extracted.filter (fun c => decide (c.page ≠ pageNumber))
  let toRemove := (mw.manager.coordinates.filter
    (fun c => decide (c.page = pageNumber))).map (fun c => c.id)
  let mgr1 := removeIds mw.manager toRemove
  addToBoth (addToBoth ⟨mgr1, ext1⟩ pageCoords) existingUser

/-- The resynchronization loop of `on_batch_extraction_completed`: re-add
every accumulated coordinate to the cleared manager, re-keying each list
entry with its newly assigned id. -/
def resyncAll : TC → List Coord → TC × List Coord
  | tc, [] => (tc, [])
  | tc, c :: cs =>
    let p := addCoordinate tc c
    let q := resyncAll p.1 cs
    (q.1, { c with id := p.2 } :: q.2)

/-- `MainWindow.on_batch_extraction_completed`: when the manager and the
accumulator disagree in length, clear the manager (resetting `next_id`
to 1) and rebuild both from the accumulator; otherwise leave the state
alone. The signal's own coordinate list is only printed, never used. -/
def onBatchExtractionCompleted (mw : MW) : MW :=
  if mw.manager.coordinates.length ≠ mw.all_extracted.length then
    let r := resyncAll (clearAll mw.manager) mw.all_extracted
    ⟨r.1, r.2⟩
  else mw

/-- `MainWindow.delete_coordinate`: when the manager removal succeeds, the
coordinate is also filtered out of `all_extracted_coordinates` by id;
when it fails, nothing changes. -/
def deleteCoordinate (mw : MW) (cid : Int) : MW :=
  match removeById mw.manager.coordinates cid with
  | some l => ⟨⟨l, mw.manager.next_id⟩,
      mw.all_extracted.filter (fun c => decide (c.id ≠ cid))⟩
  | none => mw

/-- A machine region stored for 0-based page 2 (document page 3) by an
earlier extraction pass. -/
def mach3 : Coord :=
  { id := 1, page := 2, x1 := 50, y1 := 60, x2 := 200, y2 := 160,
    width := 150, height := 100, user_created := false, accuracy := 90, whitespace := 10 }

/-- A user-created region on 0-based page 2. -/
def userA : Coord :=
  { id := 2, page := 2, x1 := 10, y1 := 20, x2 := 110, y2 := 120,
    width := 100, height := 100, user_created := true, accuracy := 100, whitespace := 0 }

/-- The main-window state before re-running extraction over document
page 3: the manager holds the machine region and the user region, the
accumulator holds the machine region. -/
def mwBefore : MW := ⟨⟨[mach3, userA], 3⟩, [mach3]⟩

/-- A fresh Camelot table detected on document page 3 during the re-run. -/
def freshTable : TableRec :=
  { page := 3, x1 := 55, y1 := 65, x2 := 205, y2 := 165, accuracy := 95, whitespace := 5 }

/-- The region dictionary the worker builds from `freshTable`: 0-based
page 2, worker id 1000. -/
def freshFC : Coord :=
  { id := 1000, page := 2, x1 := 55, y1 := 65, x2 := 205, y2 := 165,
    width := 150, height := 100, user_created := false, accuracy := 95, whitespace := 5 }

/-- Claim C1: the worker converts the page-3 table to a region with
0-based `page = 2` and emits `page_completed(3, …)` with the 1-based page
number; the handler then filters stored regions against the 1-based 3, so
nothing on the page is removed or captured: the old machine region
`mach3` survives alongside the freshly added region, instead of the
claimed final state of exactly the new machine regions plus the surviving
user regions. -/
theorem page_completed_off_by_one :
    (extractCoordinatesForPage [freshTable] 3 1000).1 = [freshFC] ∧
      (onPageExtractionCompleted mwBefore 3 [freshFC]).manager.coordinates =
        [mach3, userA, { freshFC with id := 3 }] ∧
      mach3 ∈ (onPageExtractionCompleted mwBefore 3 [freshFC]).manager.coordinates ∧
      (onPageExtractionCompleted mwBefore 3 [freshFC]).all_extracted =
        [mach3, { freshFC with id := 3 }] := by
  refine ⟨?_, ?_, ?_, ?_⟩
  · simp only [extractCoordinatesForPage, freshTable, freshFC, Coord.mk.injEq,
      List.cons.injEq, and_true]
    norm_num
  · decide
  · decide
  · decide

/-- Two region dictionaries mark the same rectangle: equal page and equal
PDF bounds (ids, flags and metadata may differ). -/
def sameContent (c r : Coord) : Prop :=
  c.page = r.page ∧ c.x1 = r.x1 ∧ c.y1 = r.y1 ∧ c.x2 = r.x2 ∧ c.y2 = r.y2

instance (c r : Coord) : Decidable (sameContent c r) := by
  unfold sameContent
  infer_instance

/-- No entry of `l` marks the same rectangle as `r`. -/
def noContent (l : List Coord) (r : Coord) : Prop :=
  ∀ c ∈ l, ¬ sameContent c r

theorem noContent_filter {l : List Coord} {p : Coord → Bool} {r : Coord}
    (h : noContent l r) : noContent (l.filter p) r :=
  fun c hc => h c (List.mem_of_mem_filter hc)

theorem removeById_mem {l l' : List Coord} {cid : Int}
    (h : removeById l cid = some l') : ∀ c ∈ l', c ∈ l := by
  induction l generalizing l' with
  | nil => simp [removeById] at h
  | cons d rest ih =>
    simp only [removeById] at h
    split at h
    · cases h
      exact fun c hc => List.mem_cons_of_mem _ hc
    · cases hrec : removeById rest cid with
      | none => rw [hrec] at h; simp at h
      | some l2 =>
        rw [hrec] at h
        simp at h
        subst h
        intro c hc
        rcases List.mem_cons.mp hc with h1 | h2
        · subst h1; exact List.mem_cons_self _ _
        · exact List.mem_cons_of_mem _ (ih hrec c h2)

theorem removeIds_noContent {r : Coord} :
    ∀ (is : List Int) (tc : TC), noContent tc.coordinates r →
      noContent (removeIds tc is).coordinates r := by
  intro is
  induction is with
  | nil => exact fun tc h => h
  | cons i is ih =>
    intro tc h
    apply ih
    unfold removeCoordinate
    cases hrec : removeById tc.coordinates i with
    | none => simpa [hrec] using h
    | some l =>
      simp only [hrec]
      exact fun c hc => h c (removeById_mem hrec c hc)

theorem addToBoth_noContent {r : Coord} :
    ∀ (cs : List Coord) (mw : MW), noContent mw.manager.coordinates r →
      noContent mw.all_extracted r → (∀ c ∈ cs, ¬ sameContent c r) →
      noContent (addToBoth mw cs).manager.coordinates r ∧
        noContent (addToBoth mw cs).all_extracted r := by
  intro cs
  induction cs with
  | nil => exact fun mw h1 h2 _ => ⟨h1, h2⟩
  | cons c cs ih =>
    intro mw h1 h2 h3
    apply ih
    · intro d hd
      rcases List.mem_append.mp hd with h | h
      · exact h1 d h
      · rcases List.mem_singleton.mp h with rfl
        exact h3 c (List.mem_cons_self _ _)
    · intro d hd
      rcases List.mem_append.mp hd with h | h
      · exact h2 d h
      · rcases List.mem_singleton.mp h with rfl
        exact h3 c (List.mem_cons_self _ _)
    · exact fun d hd => h3 d (List.mem_cons_of_mem _ hd)

theorem onPage_noContent {r : Coord} (mw : MW) (pageNumber : Int) (pageCoords : List Coord)
    (h1 : noContent mw.manager.coordinates r) (h2 : noContent mw.all_extracted r)
    (h3 : ∀ c ∈ pageCoords, ¬ sameContent c r) :
    noContent (onPageExtractionCompleted mw pageNumber pageCoords).manager.coordinates r ∧
      noContent (onPageExtractionCompleted mw pageNumber pageCoords).all_extracted r := by
  unfold onPageExtractionCompleted
  have huser : ∀ c ∈ (if mw.manager.coordinates.filter
      (fun c => decide (c.page = pageNumber) && c.user_created) = [] then
        mw.all_extracted.filter (fun c => decide (c.page = pageNumber) && c.user_created)
      else mw.manager.coordinates.filter
        (fun c => decide (c.page = pageNumber) && c.user_created)),
      ¬ sameContent c r := by
    split
    · exact noContent_filter h2
    · exact noContent_filter h1
  have hfirst := addToBoth_noContent pageCoords
    ⟨removeIds mw.manager ((mw.manager.coordinates.filter
        (fun c => decide (c.page = pageNumber))).map (fun c => c.id)),
      mw.all_extracted.filter (fun c => decide (c.page ≠ pageNumber))⟩
    (removeIds_noContent _ _ h1) (noContent_filter h2) h3
  exact addToBoth_noContent _ _ hfirst.1 hfirst.2 huser

theorem resyncAll_noContent {r : Coord} :
    ∀ (cs : List Coord) (tc : TC), noContent tc.coordinates r →
      (∀ c ∈ cs, ¬ sameContent c r) →
      noContent (resyncAll tc cs).1.coordinates r ∧ noContent (resyncAll tc cs).2 r := by
  intro cs
  induction cs with
  | nil => exact fun tc h _ => ⟨h, fun c hc => absurd hc (List.not_mem_nil c)⟩
  | cons c cs ih =>
    intro tc h1 h2
    have step : noContent (addCoordinate tc c).1.coordinates r := by
      intro d hd
      rcases List.mem_append.mp hd with h | h
      · exact h1 d h
      · rcases List.mem_singleton.mp h with rfl
        exact h2 c (List.mem_cons_self _ _)
    have rest := ih (addCoordinate tc c).1 step (fun d hd => h2 d (List.mem_cons_of_mem _ hd))
    refine ⟨rest.1, ?_⟩
    intro d hd
    simp only [resyncAll] at hd
    rcases List.mem_cons.mp hd with h | h
    · subst h
      exact h2 c (List.mem_cons_self _ _)
    · exact rest.2 d h

theorem onBatch_noContent {r : Coord} (mw : MW)
    (h1 : noContent mw.manager.coordinates r) (h2 : noContent mw.all_extracted r) :
    noContent (onBatchExtractionCompleted mw).manager.coordinates r ∧
      noContent (onBatchExtractionCompleted mw).all_extracted r := by
  unfold onBatchExtractionCompleted
  split
  · exact resyncAll_noContent mw.all_extracted (clearAll mw.manager)
      (by intro c hc; simp [clearAll] at hc) h2
  · exact ⟨h1, h2⟩

theorem foldPages_noContent {r : Coord} :
    ∀ (jobs : List (Int × List Coord)) (s : MW), noContent s.manager.coordinates r →
      noContent s.all_extracted r → (∀ j ∈ jobs, ∀ c ∈ j.2, ¬ sameContent c r) →
      noContent (List.foldl (fun s j => onPageExtractionCompleted s j.1 j.2) s
        jobs).manager.coordinates r ∧
      noContent (List.foldl (fun s j => onPageExtractionCompleted s j.1 j.2) s
        jobs).all_extracted r := by
  intro jobs
  induction jobs with
  | nil => exact fun s h1 h2 _ => ⟨h1, h2⟩
  | cons j js ih =>
    intro s h1 h2 h3
    have step := onPage_noContent s j.1 j.2 h1 h2 (h3 j (List.mem_cons_self _ _))
    exact ih _ step.1 step.2 (fun j' hj' => h3 j' (List.mem_cons_of_mem _ hj'))

theorem removeById_of_unique {l : List Coord} {r : Coord}
    (h1 : l.filter (fun c => decide (c.id = r.id)) = [r])
    (h2 : ∀ c ∈ l, sameContent c r → c = r) :
    ∃ l', removeById l r.id = some l' ∧ noContent l' r := by
  induction l with
  | nil => simp at h1
  | cons d rest ih =>
    by_cases hd : d.id = r.id
    · rw [List.filter_cons_of_pos (by simpa using hd)] at h1
      simp only [List.cons.injEq] at h1
      obtain ⟨hdr, hrest⟩ := h1
      refine ⟨rest, by simp [removeById, hd], ?_⟩
      intro c hc hs
      have hcr := h2 c (List.mem_cons_of_mem _ hc) hs
      subst hcr
      have hmem : c ∈ rest.filter (fun x => decide (x.id = c.id)) :=
        List.mem_filter.mpr ⟨hc, by simp⟩
      rw [hrest] at hmem
      cases hmem
    · rw [List.filter_cons_of_neg (by simpa using hd)] at h1
      obtain ⟨l', hrem, hnc⟩ := ih h1 (fun c hc => h2 c (List.mem_cons_of_mem _ hc))
      refine ⟨d :: l', ?_, ?_⟩
      · simp [removeById, hd, hrem]
      · intro c hc hs
        rcases List.mem_cons.mp hc with h | h
        · subst h
          exact hd (by rw [h2 c (List.mem_cons_self _ _) hs])
        · exact hnc c h hs

/-- Claim C3 (amended): once a region is deleted through
`delete_coordinate`, no later page reconciliation or job completion brings
a region with its page and coordinates back — provided the fresh
detections carry different content, which holds for the remaining pages of
a job since their regions carry other 0-based page values. (The deleted
region's raw numeric id, however, can be handed to a *different* region by
the completion handler's resynchronization, which re-keys all accumulated
regions from 1 — see the counterexample.) -/
theorem deleted_region_not_resurrected (mw : MW) (r : Coord)
    (jobs : List (Int × List Coord))
    (h1 : mw.manager.coordinates.filter (fun c => decide (c.id = r.id)) = [r])
    (h2 : ∀ c ∈ mw.manager.coordinates, sameContent c r → c = r)
    (h3 : ∀ c ∈ mw.all_extracted, sameContent c r → c.id = r.id)
    (h4 : ∀ j ∈ jobs, ∀ c ∈ j.2, ¬ sameContent c r) :
    noContent ((onBatchExtractionCompleted (jobs.foldl
        (fun s j => onPageExtractionCompleted s j.1 j.2)
        (deleteCoordinate mw r.id))).manager.coordinates) r ∧
      noContent ((onBatchExtractionCompleted (jobs.foldl
        (fun s j => onPageExtractionCompleted s j.1 j.2)
        (deleteCoordinate mw r.id))).all_extracted) r := by
  obtain ⟨l', hrem, hnc⟩ := removeById_of_unique h1 h2
  have hdel : deleteCoordinate mw r.id =
      ⟨⟨l', mw.manager.next_id⟩,
        mw.all_extracted.filter (fun c => decide (c.id ≠ r.id))⟩ := by
    unfold deleteCoordinate
    rw [hrem]
  have hext : noContent (mw.all_extracted.filter (fun c => decide (c.id ≠ r.id))) r := by
    intro c hc hs
    obtain ⟨hc1, hc2⟩ := List.mem_filter.mp hc
    simp only [decide_eq_true_eq] at hc2
    exact hc2 (h3 c hc1 hs)
  rw [hdel]
  have hfold := foldPages_noContent jobs
    ⟨⟨l', mw.manager.next_id⟩, mw.all_extracted.filter (fun c => decide (c.id ≠ r.id))⟩
    hnc hext h4
  exact onBatch_noContent _ hfold.1 hfold.2

/-- A machine region with id 1 on 0-based page 0, stored in both the
manager and the accumulator. -/
def delB1 : Coord :=
  { id := 1, page := 0, x1 := 0, y1 := 0, x2 := 10, y2 := 10,
    width := 10, height := 10, user_created := false, accuracy := 80, whitespace := 0 }

/-- A second machine region with id 2, different rectangle. -/
def delB2 : Coord :=
  { id := 2, page := 0, x1 := 20, y1 := 20, x2 := 30, y2 := 30,
    width := 10, height := 10, user_created := false, accuracy := 85, whitespace := 0 }

/-- A user-drawn region with id 3, present only in the manager (the app
stores user coordinates only there). -/
def delU : Coord :=
  { id := 3, page := 0, x1 := 40, y1 := 40, x2 := 50, y2 := 50,
    width := 10, height := 10, user_created := true, accuracy := 100, whitespace := 0 }

/-- The main-window state before the deletion: manager holds the two
machine regions and the user region, the accumulator only the machine
regions. -/
def delMw : MW := ⟨⟨[delB1, delB2, delU], 4⟩, [delB1, delB2]⟩

/-- Claim C3 counterexample: delete region id 1, let the job process one
more page (page 5, no detections), and let the job-completed handler run.
The manager (3 regions) and accumulator (1 region) disagree in length, so
the handler clears the manager and re-keys the accumulated region from 1:
`get_coordinate(1)` afterwards returns a region again — the deleted
region's id is present in the store, held by the re-keyed `delB2`,
refuting the claim's "that region's ID is not present". -/
theorem deleted_id_reappears_cex :
    getCoordinate (onBatchExtractionCompleted
        (onPageExtractionCompleted (deleteCoordinate delMw 1) 5 [])).manager 1 =
      some { delB2 with id := 1 } := by
  decide

/-- Witness for `deleted_region_not_resurrected`: deleting `delB1` from
`delMw` and processing page 5 with no detections leaves no region with
`delB1`'s page and coordinates anywhere. -/
theorem deleted_region_not_resurrected_witness :
    noContent ((onBatchExtractionCompleted (([(5, ([] : List Coord))]).foldl
        (fun s j => onPageExtractionCompleted s j.1 j.2)
        (deleteCoordinate delMw delB1.id))).manager.coordinates) delB1 ∧
      noContent ((onBatchExtractionCompleted (([(5, ([] : List Coord))]).foldl
        (fun s j => onPageExtractionCompleted s j.1 j.2)
        (deleteCoordinate delMw delB1.id))).all_extracted) delB1 :=
  deleted_region_not_resurrected delMw delB1 [(5, [])]
    (by decide) (by decide) (by decide) (by decide)

/-- The signals `BatchExtractionWorkerCustom` can emit. `error_occurred`
carries a message string; the worker formats two distinct messages, an
invalid-page-range one and a per-chunk one, modelled as separate
constructors carrying the formatted page numbers. There is no cancelled
signal in the class. -/
inductive Ev where
  | page_completed (page : Int) (coords : List Coord)
  | batch_completed (coords : List Coord)
  | progress_updated (processed total : Int)
  | error_invalid_range (sp ep : Int)
  | error_chunk (sp ep : Int)
  deriving DecidableEq, Repr

/-- The cooperative `should_stop` flag, read at successive observation
points. `stop()` only ever sets it, so the flag is false before some
threshold observation `k` and true from it on; `none` means stop is never
requested. -/
def flagAt (stopAt : Option Nat) (n : Nat) : Bool :=
  match stopAt with
  | none => false
  | some k => decide (k ≤ n)

/-- Worker-side mutable state: the flag observation counter, the
`_global_id_counter` (lazily initialised to 1000 at the first conversion,
modelled as threaded from the start), and `all_coordinates`. -/
structure WorkerSt where
  n : Nat
  gid : Int
  acc : List Coord
  deriving DecidableEq, Repr

/-- Result of the per-page loop inside one chunk. -/
structure PageLoopRes where
  trace : List Ev
  st : WorkerSt
  broke : Bool
  deriving DecidableEq, Repr

/-- Result of the chunk loop. -/
structure ChunksRes where
  trace : List Ev
  st : WorkerSt
  deriving DecidableEq, Repr

/-- Python `range(a, b + 1)` over page numbers. -/
def pageRange (a b : Int) : List Int :=
  (List.range (b + 1 - a).toNat).map (fun j : ℕ => a + (j : ℤ))

/-- The `for page_num in range(current_page, batch_end + 1)` loop of
`BatchExtractionWorkerCustom.run`: before each page the stop flag is
checked (`break` when set); otherwise the chunk's tables are filtered to
the page, converted, extended onto `all_coordinates`, and
`page_completed` plus `progress_updated` are emitted. -/
def pageLoop (stopAt : Option Nat) (tables : List TableRec) (sp total : Int) :
    List Int → WorkerSt → PageLoopRes
  | [], st => ⟨[], st, false⟩
  | p :: ps, st =>
    if flagAt stopAt st.n then ⟨[], { st with n := st.n + 1 }, true⟩
    else
      let conv := extractCoordinatesForPage
        (tables.filter (fun t => decide (t.page = p))) p st.gid
      let r := pageLoop stopAt tables sp total ps ⟨st.n + 1, conv.2, st.acc ++ conv.1⟩
      ⟨Ev.page_completed p conv.1 :: Ev.progress_updated (p - sp + 1) total :: r.trace,
        r.st, r.broke⟩

/-- The `while current_page <= self.end_page and not self.should_stop`
loop: per iteration the chunk end is `min(current + batch_size - 1, end)`,
Camelot is called on the chunk (`none` models an exception, which emits
the chunk error and moves on), the page loop runs, and `current_page`
jumps to `batch_end + 1`. Fuel bounds the iteration count; with
`batch_size ≥ 1` a fuel of the page count suffices. -/
def chunksRun (stopAt : Option Nat) (cam : Int → Int → Option (List TableRec))
    (endP bs sp total : Int) : Nat → Int → WorkerSt → ChunksRes
  | 0, _, st => ⟨[], st⟩
  | fuel + 1, cur, st =>
    if cur ≤ endP then
      if flagAt stopAt st.n then ⟨[], { st with n := st.n + 1 }⟩
      else
        let st1 : WorkerSt := { st with n := st.n + 1 }
        let be := min (cur + bs - 1) endP
        match cam cur be with
        | none =>
          let r := chunksRun stopAt cam endP bs sp total fuel (be + 1) st1
          ⟨Ev.error_chunk cur be :: r.trace, r.st⟩
        | some tables =>
          let pl := pageLoop stopAt tables sp total (pageRange cur be) st1
          let r := chunksRun stopAt cam endP bs sp total fuel (be + 1) pl.st
          ⟨pl.trace ++ r.trace, r.st⟩
    else ⟨[], st⟩

/-- The last lines of `run`: `if not self.should_stop:
batch_completed.emit(self.all_coordinates)`. -/
def runFinish (stopAt : Option Nat) (r : ChunksRes) : List Ev × WorkerSt :=
  if flagAt stopAt r.st.n then (r.trace, r.st)
  else (r.trace ++ [Ev.batch_completed r.st.acc], r.st)

/-- `BatchExtractionWorkerCustom.run` after the document was opened
successfully with `totalPages` pages: clamp `end_page` to the document,
raise `start_page` to 1, reject `start_page > end_page` with an error
message and return, else run the chunk loop and — only when the stop flag
is still clear — emit `batch_completed` with `all_coordinates`. -/
def workerRun (stopAt : Option Nat) (cam : Int → Int → Option (List TableRec))
    (totalPages bs spIn : Int) (epIn : Option Int) : List Ev × WorkerSt :=
  let ep := match epIn with
    | none => totalPages
    | some e => if totalPages < e then totalPages else e
  let sp := if spIn < 1 then 1 else spIn
  if ep < sp then ([Ev.error_invalid_range sp ep], ⟨0, 1000, []⟩)
  else runFinish stopAt
    (chunksRun stopAt cam ep bs sp (ep - sp + 1) (ep + 1 - sp).toNat sp ⟨0, 1000, []⟩)

/-- `MainWindow.get_page_range`: with the all-pages box unchecked, a
reversed `start > end` pair from the spinboxes is swapped, and the end is
clamped to the page count when one is known. -/
def getPageRange (allPages : Bool) (totalPages spIn epIn : Int) : Int × Int :=
  if allPages then (1, if 0 < totalPages then totalPages else 1)
  else
    let se := if epIn < spIn then (epIn, spIn) else (spIn, epIn)
    let e2 := if 0 < totalPages then min se.2 totalPages else se.2
    (se.1, e2)

/-- Events the chunk loop can emit (everything except `batch_completed`
and the invalid-range error, which only `run`'s preamble and postlude
emit). -/
def loopEv : Ev → Bool
  | .page_completed _ _ => true
  | .progress_updated _ _ => true
  | .error_chunk _ _ => true
  | _ => false

theorem pageLoop_loopEv {stopAt tables sp total} :
    ∀ pages st, ∀ ev ∈ (pageLoop stopAt tables sp total pages st).trace, loopEv ev = true := by
  intro pages
  induction pages with
  | nil => intro st ev hev; cases hev
  | cons p ps ih =>
    intro st ev hev
    simp only [pageLoop] at hev
    split at hev
    · cases hev
    · rcases List.mem_cons.mp hev with h | h
      · subst h; rfl
      · rcases List.mem_cons.mp h with h2 | h2
        · subst h2; rfl
        · exact ih _ ev h2

theorem chunksRun_loopEv {stopAt cam endP bs sp total} :
    ∀ fuel cur st, ∀ ev ∈ (chunksRun stopAt cam endP bs sp total fuel cur st).trace,
      loopEv ev = true := by
  intro fuel
  induction fuel with
  | zero => intro cur st ev hev; cases hev
  | succ fuel ih =>
    intro cur st ev hev
    simp only [chunksRun] at hev
    split at hev
    · split at hev
      · cases hev
      · split at hev
        · rcases List.mem_cons.mp hev with h | h
          · subst h; rfl
          · exact ih _ _ ev h
        · rcases List.mem_append.mp hev with h | h
          · exact pageLoop_loopEv _ _ ev h
          · exact ih _ _ ev h
    · cases hev

/-- A stub extraction service returning no tables. -/
def noTables : Int → Int → Option (List TableRec) := fun _ _ => some []

/-- Claim C7 counterexample: a worker started directly with
`start_page = 5 > end_page = 2` on a 10-page document does not swap the
range: it emits the invalid-page-range error and returns without
processing anything. -/
theorem start_gt_end_rejected_cex :
    workerRun none noTables 10 3 5 (some 2) =
      ([Ev.error_invalid_range 5 2], ⟨0, 1000, []⟩) := by
  decide

theorem flagAt_none (n : Nat) : flagAt none n = false := rfl

/-- Claim C7 (amended): the swap happens in the UI, not the worker.
`get_page_range` swaps a reversed pair before the job is started, so jobs
started from the range controls run the swapped range through to
`batch_completed`; but `BatchExtractionWorkerCustom.run` itself, invoked
with `start_page > end_page` (after clamping), emits an error and
processes no pages. -/
theorem start_gt_end_swapped_in_ui (cam : Int → Int → Option (List TableRec))
    (total bs sp ep : Int) (h1 : 1 ≤ ep) (h2 : ep < sp) (h3 : sp ≤ total) :
    getPageRange false total sp ep = (ep, sp) ∧
      workerRun none cam total bs sp (some ep) =
        ([Ev.error_invalid_range sp ep], ⟨0, 1000, []⟩) ∧
      Ev.batch_completed (workerRun none cam total bs ep (some sp)).2.acc ∈
        (workerRun none cam total bs ep (some sp)).1 ∧
      ∀ a b, Ev.error_invalid_range a b ∉ (workerRun none cam total bs ep (some sp)).1 := by
  refine ⟨?_, ?_, ?_, ?_⟩
  · simp only [getPageRange, Bool.false_eq_true, if_false, if_pos h2,
      if_pos (by omega : (0 : ℤ) < total)]
    rw [min_eq_left h3]
  · simp only [workerRun]
    rw [if_neg (by omega : ¬ total < ep), if_neg (by omega : ¬ sp < 1),
      if_pos (by omega : ep < sp)]
  · simp only [workerRun]
    rw [if_neg (by omega : ¬ total < sp), if_neg (by omega : ¬ ep < 1),
      if_neg (by omega : ¬ sp < ep)]
    simp only [runFinish, flagAt_none, Bool.false_eq_true, if_false]
    exact List.mem_append_right _ (List.mem_singleton.mpr rfl)
  · intro a b hmem
    simp only [workerRun] at hmem
    rw [if_neg (by omega : ¬ total < sp), if_neg (by omega : ¬ ep < 1),
      if_neg (by omega : ¬ sp < ep)] at hmem
    simp only [runFinish, flagAt_none, Bool.false_eq_true, if_false] at hmem
    rcases List.mem_append.mp hmem with h | h
    · have := chunksRun_loopEv _ _ _ _ h
      simp [loopEv] at this
    · exact Ev.noConfusion (List.mem_singleton.mp h)

/-- Witness for `start_gt_end_swapped_in_ui` at start page 5, end page 2 on
a 10-page document. -/
theorem start_gt_end_swapped_in_ui_witness :
    getPageRange false 10 5 2 = (2, 5) ∧
      workerRun none noTables 10 3 5 (some 2) =
        ([Ev.error_invalid_range 5 2], ⟨0, 1000, []⟩) := by
  have h := start_gt_end_swapped_in_ui noTables 10 3 5 2
    (by norm_num) (by norm_num) (by norm_num)
  exact ⟨h.1, h.2.1⟩

theorem flagAt_mono {k a b : Nat} (hab : a ≤ b) (h : flagAt (some k) a = true) :
    flagAt (some k) b = true := by
  simp only [flagAt, decide_eq_true_eq] at h ⊢
  omega

theorem chunksRun_flag_true (k : Nat) (cam : Int → Int → Option (List TableRec))
    (endP bs sp total : Int) :
    ∀ fuel cur (st : WorkerSt), flagAt (some k) st.n = true →
      (chunksRun (some k) cam endP bs sp total fuel cur st).trace = [] ∧
        flagAt (some k) (chunksRun (some k) cam endP bs sp total fuel cur st).st.n = true := by
  intro fuel
  cases fuel with
  | zero => exact fun cur st h => ⟨rfl, h⟩
  | succ fuel =>
    intro cur st h
    simp only [chunksRun]
    by_cases hcur : cur ≤ endP
    · rw [if_pos hcur, if_pos h]
      exact ⟨rfl, flagAt_mono (Nat.le_succ _) h⟩
    · rw [if_neg hcur]
      exact ⟨rfl, h⟩

theorem pageLoop_cases (k : Nat) (tables : List TableRec) (sp total : Int) :
    ∀ pages (st : WorkerSt),
      pageLoop (some k) tables sp total pages st = pageLoop none tables sp total pages st ∨
      ((∃ t, (pageLoop none tables sp total pages st).trace =
          (pageLoop (some k) tables sp total pages st).trace ++ t) ∧
        flagAt (some k) (pageLoop (some k) tables sp total pages st).st.n = true) := by
  intro pages
  induction pages with
  | nil => exact fun st => Or.inl rfl
  | cons p ps ih =>
    intro st
    by_cases hf : flagAt (some k) st.n = true
    · right
      constructor
      · refine ⟨(pageLoop none tables sp total (p :: ps) st).trace, ?_⟩
        have hk : (pageLoop (some k) tables sp total (p :: ps) st).trace = [] := by
          simp only [pageLoop, if_pos hf]
        rw [hk]
        rfl
      · have hk : (pageLoop (some k) tables sp total (p :: ps) st).st.n = st.n + 1 := by
          simp only [pageLoop, if_pos hf]
        rw [hk]
        exact flagAt_mono (Nat.le_succ _) hf
    · have hk : pageLoop (some k) tables sp total (p :: ps) st =
          (let conv := extractCoordinatesForPage
            (tables.filter (fun t => decide (t.page = p))) p st.gid
          let r := pageLoop (some k) tables sp total ps ⟨st.n + 1, conv.2, st.acc ++ conv.1⟩
          ⟨Ev.page_completed p conv.1 :: Ev.progress_updated (p - sp + 1) total :: r.trace,
            r.st, r.broke⟩) := by
        simp only [pageLoop, if_neg hf]
      have hn : pageLoop none tables sp total (p :: ps) st =
          (let conv := extractCoordinatesForPage
            (tables.filter (fun t => decide (t.page = p))) p st.gid
          let r := pageLoop none tables sp total ps ⟨st.n + 1, conv.2, st.acc ++ conv.1⟩
          ⟨Ev.page_completed p conv.1 :: Ev.progress_updated (p - sp + 1) total :: r.trace,
            r.st, r.broke⟩) := by
        simp only [pageLoop, flagAt_none, Bool.false_eq_true, if_false]
      rcases ih ⟨st.n + 1,
          (extractCoordinatesForPage (tables.filter (fun t => decide (t.page = p))) p st.gid).2,
          st.acc ++ (extractCoordinatesForPage
            (tables.filter (fun t => decide (t.page = p))) p st.gid).1⟩ with heq | ⟨⟨t, ht⟩, hflag⟩
      · left
        rw [hk, hn]
        simp only [heq]
      · right
        rw [hk, hn]
        exact ⟨⟨t, by simp only [ht, List.cons_append]⟩, hflag⟩

theorem chunksRun_cases (k : Nat) (cam : Int → Int → Option (List TableRec))
    (endP bs sp total : Int) :
    ∀ fuel cur (st : WorkerSt),
      chunksRun (some k) cam endP bs sp total fuel cur st =
        chunksRun none cam endP bs sp total fuel cur st ∨
      ((∃ t, (chunksRun none cam endP bs sp total fuel cur st).trace =
          (chunksRun (some k) cam endP bs sp total fuel cur st).trace ++ t) ∧
        flagAt (some k) (chunksRun (some k) cam endP bs sp total fuel cur st).st.n = true) := by
  intro fuel
  induction fuel with
  | zero => exact fun cur st => Or.inl rfl
  | succ fuel ih =>
    intro cur st
    by_cases hcur : cur ≤ endP
    · by_cases hf : flagAt (some k) st.n = true
      · right
        have hk : chunksRun (some k) cam endP bs sp total (fuel + 1) cur st =
            ⟨[], { st with n := st.n + 1 }⟩ := by
          simp only [chunksRun, if_pos hcur, if_pos hf]
        rw [hk]
        exact ⟨⟨(chunksRun none cam endP bs sp total (fuel + 1) cur st).trace, rfl⟩,
          flagAt_mono (Nat.le_succ _) hf⟩
      · cases hcam : cam cur (min (cur + bs - 1) endP) with
        | none =>
          have hk2 : chunksRun (some k) cam endP bs sp total (fuel + 1) cur st =
              ⟨Ev.error_chunk cur (min (cur + bs - 1) endP) ::
                (chunksRun (some k) cam endP bs sp total fuel
                  (min (cur + bs - 1) endP + 1) { st with n := st.n + 1 }).trace,
                (chunksRun (some k) cam endP bs sp total fuel
                  (min (cur + bs - 1) endP + 1) { st with n := st.n + 1 }).st⟩ := by
            simp only [chunksRun, if_pos hcur, if_neg hf, hcam]
          have hn2 : chunksRun none cam endP bs sp total (fuel + 1) cur st =
              ⟨Ev.error_chunk cur (min (cur + bs - 1) endP) ::
                (chunksRun none cam endP bs sp total fuel
                  (min (cur + bs - 1) endP + 1) { st with n := st.n + 1 }).trace,
                (chunksRun none cam endP bs sp total fuel
                  (min (cur + bs - 1) endP + 1) { st with n := st.n + 1 }).st⟩ := by
            simp only [chunksRun, if_pos hcur, flagAt_none, Bool.false_eq_true,
              if_false, hcam]
          rcases ih (min (cur + bs - 1) endP + 1) { st with n := st.n + 1 } with
            heq | ⟨⟨t, ht⟩, hflag⟩
          · left
            rw [hk2, hn2, heq]
          · right
            rw [hk2, hn2]
            exact ⟨⟨t, by simp only [ht, List.cons_append]⟩, hflag⟩
        | some tables =>
          have hk2 : chunksRun (some k) cam endP bs sp total (fuel + 1) cur st =
              ⟨(pageLoop (some k) tables sp total
                  (pageRange cur (min (cur + bs - 1) endP)) { st with n := st.n + 1 }).trace ++
                (chunksRun (some k) cam endP bs sp total fuel
                  (min (cur + bs - 1) endP + 1)
                  (pageLoop (some k) tables sp total
                    (pageRange cur (min (cur + bs - 1) endP))
                    { st with n := st.n + 1 }).st).trace,
                (chunksRun (some k) cam endP bs sp total fuel
                  (min (cur + bs - 1) endP + 1)
                  (pageLoop (some k) tables sp total
                    (pageRange cur (min (cur + bs - 1) endP))
                    { st with n := st.n + 1 }).st).st⟩ := by
            simp only [chunksRun, if_pos hcur, if_neg hf, hcam]
          have hn2 : chunksRun none cam endP bs sp total (fuel + 1) cur st =
              ⟨(pageLoop none tables sp total
                  (pageRange cur (min (cur + bs - 1) endP)) { st with n := st.n + 1 }).trace ++
                (chunksRun none cam endP bs sp total fuel
                  (min (cur + bs - 1) endP + 1)
                  (pageLoop none tables sp total
                    (pageRange cur (min (cur + bs - 1) endP))
                    { st with n := st.n + 1 }).st).trace,
                (chunksRun none cam endP bs sp total fuel
                  (min (cur + bs - 1) endP + 1)
                  (pageLoop none tables sp total
                    (pageRange cur (min (cur + bs - 1) endP))
                    { st with n := st.n + 1 }).st).st⟩ := by
            simp only [chunksRun, if_pos hcur, flagAt_none, Bool.false_eq_true,
              if_false, hcam]
          rcases pageLoop_cases k tables sp total
              (pageRange cur (min (cur + bs - 1) endP)) { st with n := st.n + 1 } with
            hpl | ⟨⟨t1, ht1⟩, hplflag⟩
          · rw [hk2, hn2, hpl]
            rcases ih (min (cur + bs - 1) endP + 1)
                (pageLoop none tables sp total
                  (pageRange cur (min (cur + bs - 1) endP)) { st with n := st.n + 1 }).st with
              heq | ⟨⟨t, ht⟩, hflag⟩
            · left
              rw [heq]
            · right
              refine ⟨⟨t, ?_⟩, hflag⟩
              simp only [ht, List.append_assoc]
          · have hrec := chunksRun_flag_true k cam endP bs sp total fuel
              (min (cur + bs - 1) endP + 1)
              (pageLoop (some k) tables sp total
                (pageRange cur (min (cur + bs - 1) endP)) { st with n := st.n + 1 }).st hplflag
            right
            rw [hk2, hn2]
            refine ⟨⟨t1 ++ (chunksRun none cam endP bs sp total fuel
                (min (cur + bs - 1) endP + 1)
                (pageLoop none tables sp total
                  (pageRange cur (min (cur + bs - 1) endP))
                  { st with n := st.n + 1 }).st).trace, ?_⟩, ?_⟩
            · rw [hrec.1, List.append_nil, ht1, List.append_assoc]
            · exact hrec.2
    · left
      have hk : chunksRun (some k) cam endP bs sp total (fuel + 1) cur st = ⟨[], st⟩ := by
        simp only [chunksRun, if_neg hcur]
      have hn : chunksRun none cam endP bs sp total (fuel + 1) cur st = ⟨[], st⟩ := by
        simp only [chunksRun, if_neg hcur]
      rw [hk, hn]

theorem cancel_core (k : Nat) (cam : Int → Int → Option (List TableRec))
    (endP bs sp total : Int) (fuel : Nat) (cur : Int) (st : WorkerSt) :
    (∃ t, (runFinish none (chunksRun none cam endP bs sp total fuel cur st)).1 =
        (runFinish (some k) (chunksRun (some k) cam endP bs sp total fuel cur st)).1 ++ t) ∧
    (flagAt (some k)
        (runFinish (some k) (chunksRun (some k) cam endP bs sp total fuel cur st)).2.n = true →
      ∀ cs, Ev.batch_completed cs ∉
        (runFinish (some k) (chunksRun (some k) cam endP bs sp total fuel cur st)).1) := by
  have hnone : runFinish none (chunksRun none cam endP bs sp total fuel cur st) =
      ((chunksRun none cam endP bs sp total fuel cur st).trace ++
        [Ev.batch_completed (chunksRun none cam endP bs sp total fuel cur st).st.acc],
        (chunksRun none cam endP bs sp total fuel cur st).st) := by
    simp only [runFinish, flagAt_none, Bool.false_eq_true, if_false]
  rcases chunksRun_cases k cam endP bs sp total fuel cur st with heq | ⟨⟨t, ht⟩, hflag⟩
  · rw [heq]
    by_cases hfin : flagAt (some k)
        (chunksRun none cam endP bs sp total fuel cur st).st.n = true
    · have hsome : runFinish (some k) (chunksRun none cam endP bs sp total fuel cur st) =
          ((chunksRun none cam endP bs sp total fuel cur st).trace,
            (chunksRun none cam endP bs sp total fuel cur st).st) := by
        simp only [runFinish, if_pos hfin]
      rw [hnone, hsome]
      refine ⟨⟨[Ev.batch_completed
        (chunksRun none cam endP bs sp total fuel cur st).st.acc], rfl⟩, ?_⟩
      intro _ cs hmem
      have := chunksRun_loopEv _ _ _ _ hmem
      simp [loopEv] at this
    · have hsome : runFinish (some k) (chunksRun none cam endP bs sp total fuel cur st) =
          ((chunksRun none cam endP bs sp total fuel cur st).trace ++
            [Ev.batch_completed (chunksRun none cam endP bs sp total fuel cur st).st.acc],
            (chunksRun none cam endP bs sp total fuel cur st).st) := by
        simp only [runFinish, if_neg hfin]
      rw [hnone, hsome]
      refine ⟨⟨[], (List.append_nil _).symm⟩, ?_⟩
      intro hcontra
      exact absurd hcontra hfin
  · have hsome : runFinish (some k) (chunksRun (some k) cam endP bs sp total fuel cur st) =
        ((chunksRun (some k) cam endP bs sp total fuel cur st).trace,
          (chunksRun (some k) cam endP bs sp total fuel cur st).st) := by
      simp only [runFinish, if_pos hflag]
    rw [hnone, hsome]
    refine ⟨⟨t ++ [Ev.batch_completed
      (chunksRun none cam endP bs sp total fuel cur st).st.acc], ?_⟩, ?_⟩
    · rw [ht, List.append_assoc]
    · intro _ cs hmem
      have := chunksRun_loopEv _ _ _ _ hmem
      simp [loopEv] at this

/-- Claim C8 (amended): requesting stop during a batch job halts
processing at the next per-page or per-chunk flag check: the cancelled
run's emission trace is a prefix of the uncancelled run's trace (so
already-reconciled pages stand and no page after the stop is extracted or
reconciled), and when the stop was observed by the run, `batch_completed`
is never emitted. However no cancelled notification is emitted either:
the worker's signal set (`page_completed`, `batch_completed`,
`progress_updated`, `error_occurred`) has no cancelled signal, and the
worker simply returns (see the counterexample; the "Extraction stopped"
status-bar text is written by the UI thread, not signalled by the
worker). -/
theorem cancel_stops_cleanly (cam : Int → Int → Option (List TableRec))
    (total bs sp : Int) (epOpt : Option Int) (k : Nat) :
    (∃ t, (workerRun none cam total bs sp epOpt).1 =
        (workerRun (some k) cam total bs sp epOpt).1 ++ t) ∧
    (flagAt (some k) (workerRun (some k) cam total bs sp epOpt).2.n = true →
      ∀ cs, Ev.batch_completed cs ∉ (workerRun (some k) cam total bs sp epOpt).1) := by
  simp only [workerRun]
  generalize (match epOpt with
    | none => total
    | some e => if total < e then total else e) = ep
  generalize (if sp < 1 then 1 else sp) = sp2
  by_cases herr : ep < sp2
  · simp only [if_pos herr]
    refine ⟨⟨[], (List.append_nil _).symm⟩, ?_⟩
    intro _ cs hmem
    simp at hmem
  · simp only [if_neg herr]
    exact cancel_core k cam ep bs sp2 (ep - sp2 + 1) (ep + 1 - sp2).toNat sp2 ⟨0, 1000, []⟩

/-- A stub extraction service that always succeeds with no tables. -/
def camEmpty : Int → Int → Option (List TableRec) := fun _ _ => some []

/-- Claim C8 counterexample: running pages 1–5 in one chunk with stop
requested after the first page's check, the worker's complete emission
trace is `[page_completed 1 [], progress_updated 1 5]` — the first page's
results stand, no later page is processed, and nothing else is emitted:
no `batch_completed` and, contrary to the claim, no cancelled
notification of any kind (the signal set has none). -/
theorem cancelled_no_notification_cex :
    (workerRun (some 2) camEmpty 5 5 1 none).1 =
      [Ev.page_completed 1 [], Ev.progress_updated 1 5] := by
  decide

/-- Witness for `cancel_stops_cleanly` at the concrete cancelled run of
`cancelled_no_notification_cex`: the stop is observed, so
`batch_completed` is absent from the trace. -/
theorem cancel_stops_cleanly_witness :
    Ev.batch_completed [] ∉ (workerRun (some 2) camEmpty 5 5 1 none).1 :=
  (cancel_stops_cleanly camEmpty 5 5 1 none 2).2 (by decide) []

end TableVision
